import Mathlib

/-!
Verification of the cheriplot core against its natural-language specification.

This file gives a shallow embedding, in Lean 4, of the claim-relevant parts of
the cheriplot sources:

* `cheriplot/core/addrspace_axes.py`: the `Range` interval type and the
  `AddressSpaceCollapseTransform` (its `update_range`, `_precompute_offsets`,
  `get_x` and `get_x_inv` methods);
* `cheriplot/plot/patch.py`: the `OmitRangeSetBuilder` and its
  `_update_regions` merge algorithm;
* `cheriplot/core/provenance.py`: `CheriCap` (`bound`, `has_perm`),
  `CheriCapPerm` and `NodeData.from_operand`.

Modelling conventions:
* Python floats are modelled by exact rationals (`ℚ`); "within floating
  tolerance" statements become exact equalities over `ℚ`.  Divisions whose
  denominator can be zero at run time are modelled as fallible (Python's
  `ZeroDivisionError`); the remaining divisions use the field division
  of `ℚ`.
* The builder manipulates ranges whose right endpoint may be `numpy.inf`;
  those endpoints are modelled by the two-constructor type `QI` below.  The
  collapse transform is specified (spec §3, §4.3) over *complete* partitions
  of a bounded address space, so its embedding uses plain rational endpoints.
* Machine integers in `CheriCap` are Python arbitrary-precision integers in
  the source and are modelled by `ℕ`; the source's explicit `%`/`&` masks are
  kept as written.
* Fallible code (raised exceptions: `ValueError`, `KeyError`, `IndexError`,
  `TypeError`) is modelled with `Except String`.  Calls to `logger` are pure
  logging and are not part of the embedded state (the spec, §1, excludes
  logging from the core being specified).
-/

namespace Cheriplot

/-! ### `Range` (addrspace_axes.py, lines 539-591)

Endpoints are rationals; the transform-side claims quantify over complete
partitions of a bounded address space, where every endpoint is finite. -/

/-- `Range.T_OMIT = 0`. -/
def T_OMIT : Int := 0

/-- `Range.T_KEEP = 1`. -/
def T_KEEP : Int := 1

/-- `Range.T_UNKN = -1`, the default `rtype` of `Range.__init__`. -/
def T_UNKN : Int := -1

/-- The `Range` class: `start`, `end`, and the integer tag `rtype`. -/
structure Range where
  start : ℚ
  end_ : ℚ
  rtype : Int
deriving DecidableEq, Repr

/-- `Range.__init__(start, end, rtype=-1)`: stores `min` as start and `max`
as end so that `start <= end` always holds. -/
def Range.mk' (s e : ℚ) (t : Int) : Range :=
  ⟨min s e, max s e, t⟩

/-- `Range.size`: `end - start`. -/
def Range.size (r : Range) : ℚ := r.end_ - r.start

/-- `Range.__contains__`, numeric branch: `self.start <= target and
target < self.end`. -/
def Range.containsPoint (r : Range) (p : ℚ) : Bool :=
  decide (r.start ≤ p) && decide (p < r.end_)

/-- `Range.__contains__`, `Range`-argument branch (the `try` branch):
`self.start <= target.end and target.start < self.end`. -/
def Range.containsRange (r other : Range) : Bool :=
  decide (r.start ≤ other.end_) && decide (other.start < r.end_)

/-- `Range.__add__`: `Range(min(self.start, other.start),
max(self.end, other.end))` — note that no `rtype` argument is passed, so the
constructed range carries the constructor default `T_UNKN`. -/
def Range.add (r other : Range) : Range :=
  Range.mk' (min r.start other.start) (max r.end_ other.end_) T_UNKN

/-! ### `CheriCap` and friends (provenance.py, lines 37-253) -/

/-- `CheriCap.MAX_ADDR = 0xffffffffffffffff`. -/
def MAX_ADDR : ℕ := 0xffffffffffffffff

/-- `CheriCap.MAX_OTYPE = 0x00ffffff`. -/
def MAX_OTYPE : ℕ := 0x00ffffff

/-- `CheriCapPerm.GLOBAL`. -/
def CheriCapPerm.GLOBAL : ℕ := 1

/-- `CheriCapPerm.EXEC`. -/
def CheriCapPerm.EXEC : ℕ := 2

/-- `CheriCapPerm.LOAD`. -/
def CheriCapPerm.LOAD : ℕ := 4

/-- `CheriCapPerm.STORE`. -/
def CheriCapPerm.STORE : ℕ := 8

/-- `CheriCapPerm.CAP_LOAD`. -/
def CheriCapPerm.CAP_LOAD : ℕ := 16

/-- `CheriCapPerm.CAP_STORE`. -/
def CheriCapPerm.CAP_STORE : ℕ := 32

/-- `CheriCapPerm.CAP_STORE_LOCAL`. -/
def CheriCapPerm.CAP_STORE_LOCAL : ℕ := 64

/-- `CheriCapPerm.SEAL`. -/
def CheriCapPerm.SEAL : ℕ := 128

/-- `CheriCapPerm.SYSTEM_REGISTERS = 1 << 10 | 1 << 8`. -/
def CheriCapPerm.SYSTEM_REGISTERS : ℕ := 1 <<< 10 ||| 1 <<< 8

/-- The fields of a `pycheritrace` capability register, as read by
`CheriCap.__init__` when `pct_cap` is not `None`. -/
structure PctCap where
  base : ℕ
  length : ℕ
  offset : ℕ
  permissions : ℕ
  type : ℕ
  valid : Bool
  unsealed : Bool
deriving DecidableEq, Repr

/-- The `CheriCap` data: fields read from a `pct_cap` are `none` when the
constructor argument was `None` (`CheriCap.__init__`). -/
structure CheriCap where
  base : Option ℕ
  length : Option ℕ
  offset : Option ℕ
  permissions : Option ℕ
  objtype : Option ℕ
  valid : Bool
  sealed : Bool
  t_alloc : Int
  t_free : Int
deriving DecidableEq, Repr

/-- `CheriCap.__init__(pct_cap)` for a non-`None` `pct_cap`: copies the
register fields, masks the object type with `MAX_OTYPE`, and initialises
`t_alloc = t_free = -1`. -/
def CheriCap.ofPct (p : PctCap) : CheriCap :=
  { base := some p.base
    length := some p.length
    offset := some p.offset
    permissions := some p.permissions
    objtype := some (p.type &&& MAX_OTYPE)
    valid := p.valid
    sealed := p.unsealed
    t_alloc := -1
    t_free := -1 }

/-- `CheriCap.__init__(None)`: every copied field is `None`, booleans are
`False`, times are `-1`. -/
def CheriCap.empty : CheriCap :=
  { base := none, length := none, offset := none, permissions := none,
    objtype := none, valid := false, sealed := false,
    t_alloc := -1, t_free := -1 }

/-- `CheriCap.bound`: `(self.base + self.length) % self.MAX_ADDR` when both
`base` and `length` are set, `None` otherwise.  The modulus in the source is
literally `MAX_ADDR = 2^64 - 1`. -/
def CheriCap.bound (c : CheriCap) : Option ℕ :=
  match c.base, c.length with
  | some b, some l => some ((b + l) % MAX_ADDR)
  | _, _ => none

/-- `CheriCap.has_perm(perm)`: evaluates `self.permissions & perm` and
returns its truthiness.  When `permissions` is `None`, the expression
`None & perm` raises a `TypeError` in Python before any value is returned. -/
def CheriCap.has_perm (c : CheriCap) (perm : ℕ) : Except String Bool :=
  match c.permissions with
  | none => Except.error "TypeError: unsupported operand type for &: NoneType and int"
  | some p => Except.ok (decide (p &&& perm ≠ 0))

/-- The `entry` of a decoded trace instruction (`op.instr.entry`):
`cycles`, `pc` and the `is_kernel()` flag. -/
structure TraceEntry where
  cycles : Int
  pc : ℕ
  is_kernel : Bool
deriving DecidableEq, Repr

/-- A decoded instruction (`op.instr`). -/
structure Instr where
  entry : TraceEntry
deriving DecidableEq, Repr

/-- A trace operand as consumed by `NodeData.from_operand`. -/
structure Operand where
  is_register : Bool
  is_capability : Bool
  value : PctCap
  instr : Instr
deriving DecidableEq, Repr

/-- The claim-relevant fields of `NodeData` (`NodeData.__init__`): `cap` is
`None` until set, `origin` starts `UNKNOWN (-1)`, `pc` is `None` until set,
`is_kernel` starts `False`. -/
structure NodeData where
  cap : Option CheriCap
  origin : Int
  pc : Option ℕ
  is_kernel : Bool
deriving DecidableEq, Repr

/-- `NodeData.__init__`. -/
def NodeData.init : NodeData :=
  { cap := none, origin := -1, pc := none, is_kernel := false }

/-- `NodeData.from_operand(op)`: when `not op.is_register or not
op.is_capability` the failure branch first evaluates `logger.error(...)`
(line 205) — but provenance.py never defines `logger` (it imports only
`IntEnum`, `cached_property`, `partialmethod` and `graph_tool.all`, none
of which exports that name), so this raises
`NameError: name 'logger' is not defined` and the intended
`raise ValueError("Operand is not a capability")` on line 207 is
unreachable.  Otherwise the node is built, setting `cap` from the operand
value with `cap.t_alloc = op.instr.entry.cycles`,
`pc = op.instr.entry.pc` and `is_kernel = op.instr.entry.is_kernel()`. -/
def NodeData.from_operand (op : Operand) : Except String NodeData :=
  if !op.is_register || !op.is_capability then
    Except.error "NameError: name 'logger' is not defined"
  else
    Except.ok
      { NodeData.init with
        cap := some { CheriCap.ofPct op.value with t_alloc := op.instr.entry.cycles }
        pc := some op.instr.entry.pc
        is_kernel := op.instr.entry.is_kernel }

/-! ### `OmitRangeSetBuilder` (patch.py, lines 37-119)

The builder starts from `Range(0, np.inf, Range.T_OMIT)`, so its range
endpoints live in `ℚ` extended with `+∞` (`numpy.inf`), modelled by `QI`.
The only subtractions the algorithm performs are `end - start` with a finite
`start`, so `QI.sub` needs no `-∞`/`nan` cases on reachable inputs. -/

/-- A rational endpoint or `+∞` (`numpy.inf`). -/
inductive QI where
  | fin : ℚ → QI
  | inf : QI
deriving DecidableEq, Repr

/-- Strict order on endpoints, with `inf` greater than every rational (and
not less than itself), as for Python floats. -/
def QI.ltB : QI → QI → Bool
  | .inf, _ => false
  | .fin _, .inf => true
  | .fin p, .fin q => decide (p < q)

/-- Non-strict order on endpoints. -/
def QI.leB : QI → QI → Bool
  | _, .inf => true
  | .inf, .fin _ => false
  | .fin p, .fin q => decide (p ≤ q)

/-- Python `min` on two endpoints. -/
def QI.minI (a b : QI) : QI := if QI.leB a b then a else b

/-- Python `max` on two endpoints. -/
def QI.maxI (a b : QI) : QI := if QI.leB a b then b else a

/-- Endpoint subtraction `e - s` as used by `Range.size`; a range built by
the omit builder never has an infinite `start`, so the `fin - inf` case is
unreachable there. -/
def QI.sub : QI → QI → QI
  | .inf, _ => .inf
  | .fin _, .inf => .inf
  | .fin e, .fin s => .fin (e - s)

/-- The `Range` class as the builder uses it: endpoints may be `inf`. -/
structure BRange where
  start : QI
  end_ : QI
  rtype : Int
deriving DecidableEq, Repr

/-- `Range.__init__` over `QI` endpoints: stores `min`/`max`. -/
def BRange.mk' (s e : QI) (t : Int) : BRange :=
  ⟨QI.minI s e, QI.maxI s e, t⟩

/-- `Range.size` over `QI` endpoints. -/
def BRange.size (r : BRange) : QI := QI.sub r.end_ r.start

/-- The overlap test of `RangeSet.match_overlap_range`:
`r.start < target.end and r.end > target.start` (half-open; contiguous
ranges do not overlap). -/
def BRange.overlapsB (r target : BRange) : Bool :=
  QI.ltB r.start target.end_ && QI.ltB target.start r.end_

/-- `RangeSet.match_overlap_range(target)`: the sublist of ranges
overlapping `target`, in order. -/
def matchOverlapRange (rs : List BRange) (target : BRange) : List BRange :=
  rs.filter fun r => BRange.overlapsB r target

/-- `del self.ranges[self.ranges.index(r)]`: removes the first occurrence of
`r` (the builder's lists hold pairwise distinct ranges, so first-match
removal coincides with Python's identity-based `index`). -/
def removeFirst : List BRange → BRange → List BRange
  | [], _ => []
  | a :: rest, r => if a = r then rest else a :: removeFirst rest r

/-- In-place mutation of a list member (`r.start = ...` / `r.end = ...`
inside `self.ranges`): replaces the first occurrence of `r` by `r'`. -/
def replaceFirst : List BRange → BRange → BRange → List BRange
  | [], _, _ => []
  | a :: rest, r, r' => if a = r then r' :: rest else a :: replaceFirst rest r r'

/-- The body of the `for r in overlap` loop of
`OmitRangeSetBuilder._update_regions`, for one overlapping member `r`:

* (i) `nr` fully inside `r`: delete `r`, append the left and right
  remainders (tagged `T_OMIT`) when each has `size >= size_limit`;
* (ii) `r` fully inside `nr`: delete `r`;
* (iii) `nr` crosses the start of `r`: set `r.start = nr.end`, delete `r`
  when the new size is `< size_limit`;
* (iv) `nr` crosses the end of `r`: set `r.end = nr.start`, delete `r`
  when the new size is `< size_limit`. -/
def updateStep (limit : ℚ) (nr : BRange) (rs : List BRange) (r : BRange) :
    List BRange :=
  if QI.leB r.start nr.start && QI.leB nr.end_ r.end_ then
    let rs1 := removeFirst rs r
    let r_left := BRange.mk' r.start nr.start T_OMIT
    let r_right := BRange.mk' nr.end_ r.end_ T_OMIT
    let rs2 := if QI.leB (.fin limit) r_left.size then rs1 ++ [r_left] else rs1
    if QI.leB (.fin limit) r_right.size then rs2 ++ [r_right] else rs2
  else if QI.leB nr.start r.start && QI.leB r.end_ nr.end_ then
    removeFirst rs r
  else if QI.ltB nr.start r.start then
    let r' : BRange := ⟨nr.end_, r.end_, r.rtype⟩
    if QI.ltB r'.size (.fin limit) then removeFirst rs r else replaceFirst rs r r'
  else if QI.ltB r.end_ nr.end_ then
    let r' : BRange := ⟨r.start, nr.start, r.rtype⟩
    if QI.ltB r'.size (.fin limit) then removeFirst rs r else replaceFirst rs r r'
  else rs

/-- `OmitRangeSetBuilder._update_regions(node_range)`: snapshots the
overlapping members and runs the loop body on each. -/
def updateRegions (limit : ℚ) (rs : List BRange) (nr : BRange) : List BRange :=
  (matchOverlapRange rs nr).foldl (updateStep limit nr) rs

/-- `OmitRangeSetBuilder.__init__`: `size_limit = 2**12`. -/
def size_limit_default : ℚ := 4096

/-- `OmitRangeSetBuilder.__init__`: the range set starts as
`[Range(0, np.inf, Range.T_OMIT)]`. -/
def initRanges : List BRange := [BRange.mk' (.fin 0) .inf T_OMIT]

/-! ### `AddressSpaceCollapseTransform` (addrspace_axes.py, lines 47-158)

The transform is specified (spec §3, §4.3) over a *complete* partition of a
bounded address space into KEEP/OMIT ranges; such a partition is a sorted,
contiguous, finite list of `Range`s, so all arithmetic stays in `ℚ`.  The
`SortedDict` of `_precompute_offsets` is modelled by the association list of
`(r.start, (offset, scale))` triples in partition order, which for a sorted
partition is also the dictionary's key order. -/

/-- The per-range scale of `_precompute_offsets`:
`1 if r.rtype == Range.T_KEEP else self.omit_scale`. -/
def rscale (sc : ℚ) (r : Range) : ℚ :=
  if r.rtype = T_KEEP then 1 else sc

/-- The loop of `_precompute_offsets`: walks the ranges accumulating the
collapsed offset `x_collapsed`, recording `(r.start, x_collapsed, scale)`
for each range before advancing by `r.size * scale`. -/
def precomputeAux (sc : ℚ) (acc : ℚ) : List Range → List (ℚ × ℚ × ℚ)
  | [] => []
  | r :: rest =>
    (r.start, acc, rscale sc r) :: precomputeAux sc (acc + r.size * rscale sc r) rest

/-- `_precompute_offsets`: the offset table, starting from `x_collapsed = 0`. -/
def precompute (sc : ℚ) (rs : List Range) : List (ℚ × ℚ × ℚ) :=
  precomputeAux sc 0 rs

/-- The key-selection step of `get_x`:
`base_idx = bisect_left(x)`; when `base_idx == len` or the key at
`base_idx` exceeds `x`, fall back to `iloc[base_idx - 1]` (for
`base_idx = 0` Python's `-1` wraps to the *last* key, and on an empty table
it is an `IndexError`); otherwise the key is `x` itself. -/
def bisectKey (keys : List ℚ) (x : ℚ) : Except String ℚ :=
  let idx := keys.findIdx fun k => decide (x ≤ k)
  if idx = keys.length ∨ x < keys.getD idx 0 then
    if idx = 0 then
      match keys.getLast? with
      | some k => Except.ok k
      | none => Except.error "IndexError: list index out of range"
    else Except.ok (keys.getD (idx - 1) 0)
  else Except.ok x

/-- The final dictionary access of `get_x`:
`x_collapsed, x_scale = self._precomputed_offsets[key]` followed by
`return x_collapsed + (x_dataspace - key) * x_scale`; a missing key is a
`KeyError`. -/
def lookupKey (offs : List (ℚ × ℚ × ℚ)) (x key : ℚ) : Except String ℚ :=
  match offs.find? fun t => decide (t.1 = key) with
  | some t => Except.ok (t.2.1 + (x - key) * t.2.2)
  | none => Except.error "KeyError"

/-- `AddressSpaceCollapseTransform.get_x(x_dataspace)`: negative inputs pass
through; otherwise look up the greatest precomputed start at or below `x`
and return `x_collapsed + (x - key) * x_scale`. -/
def get_x (offs : List (ℚ × ℚ × ℚ)) (x : ℚ) : Except String ℚ :=
  if x < 0 then Except.ok x
  else (bisectKey (offs.map fun t => t.1) x).bind (lookupKey offs x)

/-- The `for r in self.target_ranges` loop of `get_x_inv`, carrying
`x_inverse` and `x_current`; a range that is neither `T_KEEP` nor `T_OMIT`
raises `ValueError("Unexpected range in transform ...")`.  In the OMIT
break-branch the source divides by `self.omit_scale`, which raises a
`ZeroDivisionError` when `omit_scale == 0` (a value `update_range` installs
whenever the partition has omitted mass but no finite KEEP mass). -/
def goInv (sc : ℚ) (x : ℚ) : List Range → ℚ → ℚ → Except String ℚ
  | [], xinv, _ => Except.ok xinv
  | r :: rest, xinv, xcur =>
    if r.rtype = T_KEEP then
      if x > xcur + r.size then goInv sc x rest (xinv + r.size) (xcur + r.size)
      else Except.ok (xinv + (x - xcur))
    else if r.rtype = T_OMIT then
      let scaled_size := r.size * sc
      if x > xcur + scaled_size then goInv sc x rest (xinv + r.size) (xcur + scaled_size)
      else if sc = 0 then Except.error "ZeroDivisionError: float division by zero"
      else Except.ok (xinv + (x - xcur) / sc)
    else Except.error "Unexpected range in transform"

/-- `AddressSpaceCollapseTransform.get_x_inv(x)`: the scan starts with
`x_inverse = x_current = 0`. -/
def get_x_inv (sc : ℚ) (rs : List Range) (x : ℚ) : Except String ℚ :=
  goInv sc x rs 0 0

/-- Total size of the `T_KEEP` members (`update_range`); over `ℚ` every
size is finite, so the source's `r.size < np.inf` guard is vacuously true. -/
def keepSize (rs : List Range) : ℚ :=
  (rs.filter fun r => decide (r.rtype = T_KEEP)).foldl (fun acc r => acc + r.size) 0

/-- Total size of the `T_OMIT` members (`update_range`). -/
def omitSize (rs : List Range) : ℚ :=
  (rs.filter fun r => decide (r.rtype = T_OMIT)).foldl (fun acc r => acc + r.size) 0

/-- The `omit_scale` computation of `update_range`: when the total omitted
size is nonzero, `omit_scale = 0.05 * keep_size / omit_size`; otherwise the
previous value (default `1` from `__init__`) is kept. -/
def updateScale (prev : ℚ) (rs : List Range) : ℚ :=
  if omitSize rs ≠ 0 then (0.05 : ℚ) * keepSize rs / omitSize rs else prev

/-- Total *displayed* width of the `T_OMIT` members under scale `sc`. -/
def omitDisplayed (rs : List Range) (sc : ℚ) : ℚ :=
  (rs.filter fun r => decide (r.rtype = T_OMIT)).foldl (fun acc r => acc + r.size * sc) 0

/-- The ranges `rs` tile the address space contiguously starting at `s`,
each with positive size. -/
def chainFrom (s : ℚ) : List Range → Prop
  | [] => True
  | r :: rest => r.start = s ∧ s < r.end_ ∧ chainFrom r.end_ rest

/-- A *complete* partition in the sense of spec §3: a nonempty contiguous
tiling of the address space from `0`, every member marked KEEP or OMIT. -/
def completePartition (rs : List Range) : Prop :=
  rs ≠ [] ∧ chainFrom 0 rs ∧ ∀ r ∈ rs, r.rtype = T_KEEP ∨ r.rtype = T_OMIT

/-- Relabel every non-KEEP range as OMIT (used to state that the forward
map treats an UNKNOWN range exactly like an OMIT one). -/
def relabel (rs : List Range) : List Range :=
  rs.map fun r => if r.rtype = T_KEEP then r else { r with rtype := T_OMIT }

/-! ### Helper lemmas -/

theorem foldl_add_size (l : List Range) (c : ℚ) :
    l.foldl (fun a r => a + r.size) c = c + (l.map Range.size).sum := by
  induction l generalizing c with
  | nil => simp
  | cons r t ih => simp [List.foldl_cons, ih, add_assoc]

theorem foldl_add_size_mul (sc : ℚ) (l : List Range) (c : ℚ) :
    l.foldl (fun a r => a + r.size * sc) c = c + (l.map Range.size).sum * sc := by
  induction l generalizing c with
  | nil => simp
  | cons r t ih => simp [List.foldl_cons, ih, add_assoc, add_mul]

theorem omitDisplayed_eq (rs : List Range) (sc : ℚ) :
    omitDisplayed rs sc = omitSize rs * sc := by
  unfold omitDisplayed omitSize
  rw [foldl_add_size_mul, foldl_add_size]
  ring

theorem removeFirst_append (L₁ L₂ : List BRange) (r : BRange) (h : r ∉ L₁) :
    removeFirst (L₁ ++ r :: L₂) r = L₁ ++ L₂ := by
  induction L₁ with
  | nil => simp [removeFirst]
  | cons a t ih =>
    have ha : ¬(a = r) := fun hc => h (hc ▸ List.mem_cons_self a t)
    simp only [List.cons_append, removeFirst, ha, if_false]
    rw [show t.append (r :: L₂) = t ++ r :: L₂ from rfl,
      ih (fun hc => h (List.mem_cons_of_mem a hc))]

theorem filter_eq_nil_of (p : BRange → Bool) (l : List BRange)
    (h : ∀ a ∈ l, p a = false) : l.filter p = [] := by
  induction l with
  | nil => rfl
  | cons a t ih =>
    rw [List.filter_cons, h a (List.mem_cons_self a t)]
    exact ih fun a ha => h a (List.mem_cons_of_mem _ ha)

theorem goInv_ok (sc x : ℚ) (hsc : sc ≠ 0) (rs : List Range) :
    ∀ (xinv xcur : ℚ), (∀ r ∈ rs, r.rtype = T_KEEP ∨ r.rtype = T_OMIT) →
    ∃ v, goInv sc x rs xinv xcur = Except.ok v := by
  induction rs with
  | nil => exact fun xinv xcur _ => ⟨xinv, rfl⟩
  | cons r t ih =>
    intro xinv xcur h
    have ht : ∀ q ∈ t, q.rtype = T_KEEP ∨ q.rtype = T_OMIT :=
      fun q hq => h q (List.mem_cons_of_mem _ hq)
    rcases h r (List.mem_cons_self r t) with hk | ho
    · rw [goInv, if_pos hk]
      split
      · exact ih _ _ ht
      · exact ⟨_, rfl⟩
    · have hk : ¬r.rtype = T_KEEP := by rw [ho]; decide
      rw [goInv, if_neg hk, if_pos ho]
      show ∃ v, (if x > xcur + r.size * sc then
          goInv sc x t (xinv + r.size) (xcur + r.size * sc)
        else if sc = 0 then Except.error "ZeroDivisionError: float division by zero"
        else Except.ok (xinv + (x - xcur) / sc)) = Except.ok v
      split
      · exact ih _ _ ht
      · -- the break branch: `split` has already discharged the
        -- `sc = 0` case against `hsc`, so the division returns a value
        exact ⟨_, rfl⟩

theorem goInv_no_unkn (sc x : ℚ) (rs : List Range) :
    ∀ (xinv xcur : ℚ), (∀ r ∈ rs, r.rtype = T_KEEP ∨ r.rtype = T_OMIT) →
    goInv sc x rs xinv xcur ≠ Except.error "Unexpected range in transform" := by
  induction rs with
  | nil => exact fun xinv xcur _ h => Except.noConfusion h
  | cons r t ih =>
    intro xinv xcur h
    have ht : ∀ q ∈ t, q.rtype = T_KEEP ∨ q.rtype = T_OMIT :=
      fun q hq => h q (List.mem_cons_of_mem _ hq)
    rcases h r (List.mem_cons_self r t) with hk | ho
    · rw [goInv, if_pos hk]
      split
      · exact ih _ _ ht
      · intro hEq; exact Except.noConfusion hEq
    · have hk : ¬r.rtype = T_KEEP := by rw [ho]; decide
      rw [goInv, if_neg hk, if_pos ho]
      show (if x > xcur + r.size * sc then
          goInv sc x t (xinv + r.size) (xcur + r.size * sc)
        else if sc = 0 then Except.error "ZeroDivisionError: float division by zero"
        else Except.ok (xinv + (x - xcur) / sc)) ≠
          Except.error "Unexpected range in transform"
      split
      · exact ih _ _ ht
      · split
        · intro hEq
          exact absurd (Except.error.inj hEq) (by decide)
        · intro hEq; exact Except.noConfusion hEq

theorem mem_keys_find (offs : List (ℚ × ℚ × ℚ)) (key : ℚ)
    (h : key ∈ offs.map fun t => t.1) :
    ∃ t, (offs.find? fun t => decide (t.1 = key)) = some t := by
  induction offs with
  | nil => simp at h
  | cons a l ih =>
    by_cases ha : a.1 = key
    · exact ⟨a, by simp [List.find?_cons, ha]⟩
    · have : key ∈ l.map fun t => t.1 := by
        rcases List.mem_map.1 h with ⟨t, ht, hkey⟩
        rcases List.mem_cons.1 ht with h1 | h1
        · exact absurd (h1 ▸ hkey) ha
        · exact List.mem_map.2 ⟨t, h1, hkey⟩
      rcases ih this with ⟨t, hfind⟩
      refine ⟨t, ?_⟩
      rw [List.find?_cons, decide_eq_false ha]
      exact hfind

theorem bisectKey_ok (keys : List ℚ) (x : ℚ) (h : keys ≠ []) :
    ∃ key, bisectKey keys x = Except.ok key ∧ key ∈ keys := by
  unfold bisectKey
  set idx := keys.findIdx fun k => decide (x ≤ k) with hidx
  have hle : idx ≤ keys.length := List.findIdx_le_length _
  by_cases hcond : idx = keys.length ∨ x < keys.getD idx 0
  · rw [if_pos hcond]
    by_cases h0 : idx = 0
    · rw [if_pos h0]
      rcases List.exists_mem_of_ne_nil keys h with ⟨a, _⟩
      have hlast : keys.getLast? = some (keys.getLast h) := List.getLast?_eq_getLast keys h
      rw [hlast]
      exact ⟨_, rfl, List.getLast_mem h⟩
    · rw [if_neg h0]
      have hlt : idx - 1 < keys.length := by omega
      refine ⟨_, rfl, ?_⟩
      rw [List.getD_eq_getElem keys 0 hlt]
      exact List.getElem_mem hlt
  · rw [if_neg hcond]
    push_neg at hcond
    have hlt : idx < keys.length := lt_of_le_of_ne hle hcond.1
    have hfound : decide (x ≤ keys[idx]) = true := List.findIdx_getElem (w := hlt)
    have hx1 : x ≤ keys[idx] := of_decide_eq_true hfound
    have hx2 : keys.getD idx 0 ≤ x := hcond.2
    rw [List.getD_eq_getElem keys 0 hlt] at hx2
    have : x = keys[idx] := le_antisymm hx1 hx2
    exact ⟨x, rfl, this ▸ List.getElem_mem hlt⟩

theorem getx_total (offs : List (ℚ × ℚ × ℚ)) (x : ℚ) (h : offs ≠ []) :
    ∃ v, get_x offs x = Except.ok v := by
  unfold get_x
  by_cases hneg : x < 0
  · rw [if_pos hneg]; exact ⟨x, rfl⟩
  · rw [if_neg hneg]
    have hk : (offs.map fun t => t.1) ≠ [] := by
      simpa using h
    rcases bisectKey_ok _ x hk with ⟨key, hok, hmem⟩
    rw [hok]
    rcases mem_keys_find offs key hmem with ⟨t, hfind⟩
    show ∃ v, lookupKey offs x key = Except.ok v
    unfold lookupKey
    rw [hfind]
    exact ⟨_, rfl⟩

theorem relabel_precompute (sc : ℚ) (rs : List Range) :
    ∀ c, precomputeAux sc c (relabel rs) = precomputeAux sc c rs := by
  induction rs with
  | nil => intro c; rfl
  | cons r t ih =>
    intro c
    by_cases hk : r.rtype = T_KEEP
    · simp only [relabel, List.map_cons, if_pos hk, precomputeAux]
      rw [show List.map _ t = relabel t from rfl, ih]
    · simp only [relabel, List.map_cons, if_neg hk, precomputeAux]
      have h1 : rscale sc { r with rtype := T_OMIT } = sc := by
        simp [rscale, T_OMIT, T_KEEP]
      have h2 : rscale sc r = sc := by simp [rscale, hk]
      have h3 : Range.size { r with rtype := T_OMIT } = r.size := rfl
      rw [h1, h2, h3, show List.map _ t = relabel t from rfl, ih]

theorem precompute_scales (sc : ℚ) (rs : List Range) :
    ∀ c, ((precomputeAux sc c rs).map fun t => t.2.2) =
      rs.map fun r => if r.rtype = T_KEEP then 1 else sc := by
  induction rs with
  | nil => intro c; rfl
  | cons r t ih => intro c; simp only [precomputeAux, List.map_cons, ih, rscale]

theorem chain_start_le (rs : List Range) :
    ∀ s : ℚ, chainFrom s rs → ∀ r ∈ rs, s ≤ r.start := by
  induction rs with
  | nil => intro s _ r hr; simp at hr
  | cons r₀ t ih =>
    intro s hch r hr
    obtain ⟨h1, h2, h3⟩ := hch
    rcases List.mem_cons.1 hr with rfl | hm
    · exact le_of_eq h1.symm
    · exact le_trans (le_of_lt h2) (ih _ h3 r hm)

theorem precompute_keys (sc : ℚ) (rs : List Range) :
    ∀ c, ((precomputeAux sc c rs).map fun t => t.1) = rs.map Range.start := by
  induction rs with
  | nil => intro c; rfl
  | cons r t ih => intro c; simp only [precomputeAux, List.map_cons, ih]

theorem bisectKey_head (k x : ℚ) (keys' : List ℚ) (hk : k ≤ x)
    (htail : keys' = [] ∨ ∃ k₂ ks, keys' = k₂ :: ks ∧ x < k₂) :
    bisectKey (k :: keys') x = Except.ok k := by
  simp only [bisectKey]
  by_cases hx : x ≤ k
  · have hxk : x = k := le_antisymm hx hk
    have hidx : List.findIdx (fun t => decide (x ≤ t)) (k :: keys') = 0 := by
      rw [List.findIdx_cons]; simp [hx]
    simp only [hidx]
    rw [if_neg]
    · rw [hxk]
    · rintro (h | h)
      · simp at h
      · rw [List.getD_cons_zero] at h
        exact absurd h (not_lt.2 hk)
  · have hidx : List.findIdx (fun t => decide (x ≤ t)) (k :: keys') =
        List.findIdx (fun t => decide (x ≤ t)) keys' + 1 := by
      rw [List.findIdx_cons]; simp [hx]
    simp only [hidx]
    rcases htail with rfl | ⟨k₂, ks, rfl, hxk₂⟩
    · simp only [List.findIdx_nil]
      have hc : (0 + 1 = [k].length ∨ x < [k].getD (0 + 1) 0) := Or.inl (by simp)
      rw [if_pos hc, if_neg (by omega), List.getD_cons_zero]
    · have hidx2 : List.findIdx (fun t => decide (x ≤ t)) (k₂ :: ks) = 0 := by
        rw [List.findIdx_cons]; simp [le_of_lt hxk₂]
      simp only [hidx2]
      rw [if_pos, if_neg (by omega), List.getD_cons_zero]
      right
      rw [List.getD_cons_succ, List.getD_cons_zero]
      exact hxk₂

theorem bisectKey_tail (k k₂ x : ℚ) (ks : List ℚ) (hkk : k < k₂) (hx : k₂ ≤ x) :
    bisectKey (k :: k₂ :: ks) x = bisectKey (k₂ :: ks) x := by
  have hnx : ¬x ≤ k := not_le.2 (lt_of_lt_of_le hkk hx)
  simp only [bisectKey]
  have hidx : List.findIdx (fun t => decide (x ≤ t)) (k :: k₂ :: ks) =
      List.findIdx (fun t => decide (x ≤ t)) (k₂ :: ks) + 1 := by
    rw [List.findIdx_cons]; simp [hnx]
  simp only [hidx]
  set j := List.findIdx (fun t => decide (x ≤ t)) (k₂ :: ks) with hj
  have hcond : (j + 1 = (k :: k₂ :: ks).length ∨ x < (k :: k₂ :: ks).getD (j + 1) 0) ↔
      (j = (k₂ :: ks).length ∨ x < (k₂ :: ks).getD j 0) := by
    rw [List.getD_cons_succ]
    constructor <;> rintro (h | h)
    · left; simpa using h
    · right; exact h
    · left; simp [h]
    · right; exact h
  by_cases hA : j = (k₂ :: ks).length ∨ x < (k₂ :: ks).getD j 0
  · rw [if_pos (hcond.2 hA), if_pos hA]
    have hj0 : j ≠ 0 := by
      intro h0
      rcases hA with hA | hA
      · rw [h0] at hA; simp at hA
      · rw [h0, List.getD_cons_zero] at hA
        exact absurd hA (not_lt.2 hx)
    rw [if_neg (by omega : ¬j + 1 = 0), if_neg hj0,
      show j + 1 - 1 = (j - 1) + 1 by omega, List.getD_cons_succ]
  · rw [if_neg (fun h => hA (hcond.1 h)), if_neg hA]

theorem getx_head (k o s' x : ℚ) (offs' : List (ℚ × ℚ × ℚ)) (hx0 : ¬x < 0)
    (hk : k ≤ x)
    (htail : offs' = [] ∨ ∃ t ts, offs' = t :: ts ∧ x < t.1) :
    get_x ((k, o, s') :: offs') x = Except.ok (o + (x - k) * s') := by
  unfold get_x
  rw [if_neg hx0]
  simp only [List.map_cons]
  have htail' : (offs'.map fun t => t.1) = [] ∨
      ∃ k₂ ks, (offs'.map fun t => t.1) = k₂ :: ks ∧ x < k₂ := by
    rcases htail with rfl | ⟨t, ts, rfl, hxt⟩
    · left; rfl
    · right; exact ⟨t.1, ts.map fun t => t.1, by simp, hxt⟩
  rw [bisectKey_head k x _ hk htail']
  show lookupKey ((k, o, s') :: offs') x k = _
  unfold lookupKey
  rw [List.find?_cons_of_pos _ (by simp)]

theorem getx_tail (k o s' x : ℚ) (t : ℚ × ℚ × ℚ) (ts : List (ℚ × ℚ × ℚ))
    (hx0 : ¬x < 0) (hkt : k < t.1) (hxt : t.1 ≤ x)
    (hall : ∀ u ∈ t :: ts, k < u.1) :
    get_x ((k, o, s') :: t :: ts) x = get_x (t :: ts) x := by
  unfold get_x
  rw [if_neg hx0, if_neg hx0]
  simp only [List.map_cons]
  rw [bisectKey_tail k t.1 x _ hkt hxt]
  rcases bisectKey_ok (t.1 :: ts.map fun u => u.1) x (by simp) with ⟨key, hok, hmem⟩
  rw [hok]
  show lookupKey ((k, o, s') :: t :: ts) x key = lookupKey (t :: ts) x key
  unfold lookupKey
  have hne : decide ((k, o, s').1 = key) = false := by
    simp only [decide_eq_false_iff_not]
    intro hkey
    rw [show (t.1 :: ts.map fun u => u.1) = (t :: ts).map fun u => u.1 from rfl] at hmem
    rcases List.mem_map.1 hmem with ⟨u, hu, hu1⟩
    have := hall u hu
    rw [hu1] at this
    exact absurd hkey (ne_of_lt this)
  simp only [List.find?_cons, hne]

theorem roundtrip_aux (sc : ℚ) (hsc : 0 < sc) (a : ℚ) (r : Range)
    (hkK : r.rtype = T_KEEP) (ha1 : r.start ≤ a) (ha2 : a < r.end_) :
    ∀ (rs : List Range), ∀ (s c : ℚ), chainFrom s rs →
      (∀ q ∈ rs, q.rtype = T_KEEP ∨ q.rtype = T_OMIT) →
      0 ≤ s → r ∈ rs →
      ∃ X, get_x (precomputeAux sc c rs) a = Except.ok X ∧ c ≤ X ∧
        (X = c → a = s) ∧ goInv sc X rs s c = Except.ok a := by
  intro rs
  induction rs with
  | nil => intro s c _ _ _ hr; simp at hr
  | cons r₀ t ih =>
    intro s c hch hrt hs hr
    obtain ⟨h1, h2, h3⟩ := hch
    have hrt₀ := hrt r₀ (List.mem_cons_self r₀ t)
    have hrtT : ∀ q ∈ t, q.rtype = T_KEEP ∨ q.rtype = T_OMIT :=
      fun q hq => hrt q (List.mem_cons_of_mem _ hq)
    have hsr : s ≤ r.start := chain_start_le (r₀ :: t) s ⟨h1, h2, h3⟩ r hr
    have hax : ¬a < 0 := not_lt.2 (le_trans hs (le_trans hsr ha1))
    by_cases hcase : a < r₀.end_
    · -- the target address lies in the head range, which must be `r`
      have hrr : r = r₀ := by
        rcases List.mem_cons.1 hr with h | hm
        · exact h
        · exact absurd hcase
            (not_lt.2 (le_trans (chain_start_le t r₀.end_ h3 r hm) ha1))
      subst hrr
      refine ⟨c + (a - r.start) * 1, ?_, by linarith, by intro h; linarith [h1], ?_⟩
      · have hpre : precomputeAux sc c (r :: t) =
            (r.start, c, 1) :: precomputeAux sc (c + r.size * 1) t := by
          simp [precomputeAux, rscale, hkK]
        rw [hpre]
        refine getx_head r.start c 1 a _ hax ha1 ?_
        cases t with
        | nil => exact Or.inl rfl
        | cons r₁ t' =>
          right
          refine ⟨_, _, rfl, ?_⟩
          show a < r₁.start
          rw [h3.1]
          exact hcase
      · rw [goInv, if_pos hkK, if_neg (by simp only [Range.size]; intro h; linarith)]
        exact congrArg Except.ok (by rw [← h1]; ring)
    · -- the target address lies beyond the head range: recurse on the tail
      push_neg at hcase
      have hrm : r ∈ t := by
        rcases List.mem_cons.1 hr with h | hm
        · exact absurd ha2 (not_lt.2 (h ▸ hcase))
        · exact hm
      cases t with
      | nil => simp at hrm
      | cons r₁ t' =>
        obtain ⟨h31, h32, h33⟩ := h3
        have hsize : 0 < r₀.size := by
          simp only [Range.size]
          have := h1 ▸ h2
          linarith
        have hpos : 0 < r₀.size * rscale sc r₀ := by
          rcases hrt₀ with hK | hO
          · rw [rscale, if_pos hK]; linarith
          · rw [rscale, if_neg (by rw [hO]; decide)]
            exact mul_pos hsize hsc
        obtain ⟨X, hget, hcX, himp, hinv⟩ :=
          ih r₀.end_ (c + r₀.size * rscale sc r₀) ⟨h31, h32, h33⟩ hrtT
            (le_trans hs (le_of_lt h2)) hrm
        have hc'le : c + r₀.size * rscale sc r₀ ≤ X := hcX
        refine ⟨X, ?_, by linarith, by intro h; linarith, ?_⟩
        · have hpre : precomputeAux sc c (r₀ :: r₁ :: t') =
              (r₀.start, c, rscale sc r₀) ::
                (r₁.start, c + r₀.size * rscale sc r₀, rscale sc r₁) ::
                  precomputeAux sc
                    (c + r₀.size * rscale sc r₀ + r₁.size * rscale sc r₁) t' := rfl
          rw [hpre]
          rw [getx_tail r₀.start c (rscale sc r₀) a _ _ hax
            (by show r₀.start < r₁.start; rw [h31, h1]; exact h2)
            (by show r₁.start ≤ a; rw [h31]; exact hcase) ?_]
          · exact hget
          · intro u hu
            have hu1 : u.1 ∈
                (((r₁.start, c + r₀.size * rscale sc r₀, rscale sc r₁) ::
                  precomputeAux sc
                    (c + r₀.size * rscale sc r₀ + r₁.size * rscale sc r₁) t').map
                      fun v => v.1) := List.mem_map_of_mem _ hu
            rw [List.map_cons, precompute_keys] at hu1
            rcases List.mem_cons.1 hu1 with h | h
            · rw [h, h31, h1]; exact h2
            · rcases List.mem_map.1 h with ⟨q, hq, hq1⟩
              have hq2 := chain_start_le t' r₁.end_ h33 q hq
              rw [← hq1]
              have : r₀.start = s := h1
              rw [this, h31] at *
              linarith
        · rcases hrt₀ with hK | hO
          · -- head range is KEEP
            have hc' : c + r₀.size * rscale sc r₀ = c + r₀.size := by
              rw [rscale, if_pos hK]; ring
            rw [goInv, if_pos hK]
            by_cases hgt : X > c + r₀.size
            · rw [if_pos hgt]
              have hs' : s + r₀.size = r₀.end_ := by
                simp only [Range.size]; rw [h1]; ring
              rw [hs', show c + r₀.size = c + r₀.size * rscale sc r₀ from hc'.symm]
              exact hinv
            · rw [if_neg hgt]
              have hXc' : X = c + r₀.size :=
                le_antisymm (not_lt.1 hgt) (by rw [← hc']; exact hc'le)
              have haE : a = r₀.end_ := himp (by rw [hXc', hc'])
              refine congrArg Except.ok ?_
              rw [hXc', haE]
              simp only [Range.size]
              rw [h1]
              ring
          · -- head range is OMIT
            have hKne : ¬r₀.rtype = T_KEEP := by rw [hO]; decide
            have hc' : c + r₀.size * rscale sc r₀ = c + r₀.size * sc := by
              rw [rscale, if_neg hKne]
            rw [goInv, if_neg hKne, if_pos hO]
            show (if X > c + r₀.size * sc then
                goInv sc X (r₁ :: t') (s + r₀.size) (c + r₀.size * sc)
              else if sc = 0 then
                Except.error "ZeroDivisionError: float division by zero"
              else Except.ok (s + (X - c) / sc)) = Except.ok a
            by_cases hgt : X > c + r₀.size * sc
            · rw [if_pos hgt]
              have hs' : s + r₀.size = r₀.end_ := by
                simp only [Range.size]; rw [h1]; ring
              rw [hs', show c + r₀.size * sc = c + r₀.size * rscale sc r₀ from hc'.symm]
              exact hinv
            · rw [if_neg hgt, if_neg (ne_of_gt hsc)]
              have hXc' : X = c + r₀.size * sc :=
                le_antisymm (not_lt.1 hgt) (by rw [← hc']; exact hc'le)
              have haE : a = r₀.end_ := himp (by rw [hXc', hc'])
              refine congrArg Except.ok ?_
              rw [hXc', haE]
              have hdiv : (c + r₀.size * sc - c) / sc = r₀.size := by
                rw [show c + r₀.size * sc - c = r₀.size * sc by ring]
                exact mul_div_cancel_right₀ _ (ne_of_gt hsc)
              rw [hdiv]
              simp only [Range.size]
              rw [h1]
              ring

/-! ### Claim theorems -/

/-- C1: for every address `a` inside a KEEP range of a complete KEEP/OMIT
partition and every positive `omit_scale` (the scale installed in the
transform is `1` by default or `0.05 * keep/omit > 0` whenever a finite
KEEP range exists), the inverse map undoes the forward map exactly:
`get_x_inv (get_x a) = a` (exact over `ℚ`, hence within any floating
tolerance). -/
theorem spec_c1_roundtrip (sc : ℚ) (rs : List Range) (a : ℚ) (r : Range)
    (hsc : 0 < sc) (hcomp : completePartition rs) (hr : r ∈ rs)
    (hk : r.rtype = T_KEEP) (ha1 : r.start ≤ a) (ha2 : a < r.end_) :
    (get_x (precompute sc rs) a).bind (get_x_inv sc rs) = Except.ok a := by
  obtain ⟨-, hchain, hrt⟩ := hcomp
  obtain ⟨X, hget, -, -, hinv⟩ :=
    roundtrip_aux sc hsc a r hk ha1 ha2 rs 0 0 hchain hrt le_rfl hr
  rw [precompute, hget]
  exact hinv

/-- C1 witness: partition `[0,10) OMIT, [10,20) KEEP` with
`omit_scale = 1/2`; the address `12` round-trips through the transform. -/
theorem spec_c1_roundtrip_witness :
    (get_x (precompute (1 / 2) [⟨0, 10, T_OMIT⟩, ⟨10, 20, T_KEEP⟩]) 12).bind
      (get_x_inv (1 / 2) [⟨0, 10, T_OMIT⟩, ⟨10, 20, T_KEEP⟩]) = Except.ok 12 :=
  spec_c1_roundtrip (1 / 2) _ 12 ⟨10, 20, T_KEEP⟩ (by norm_num)
    ⟨by simp, ⟨rfl, by norm_num, rfl, by norm_num, trivial⟩, by decide⟩
    (by simp) rfl (by norm_num) (by norm_num)

/-- C2: starting from the builder's single OMIT range over the whole address
space with `size_limit = 4096`, inspecting an interesting range that falls
fully inside an OMIT member splits that member into the left remainder
`[r.start, nr.start)` and the right remainder `[nr.end, r.end)`, each kept
only when its size is at least `size_limit`; in particular
`inspect([1000, 2000))` drops `[0, 1000)` (size `1000 < 4096`) and retains
`[2000, ∞)`.  Stated for any member list in which `r` is the only member
overlapping `nr`. -/
theorem spec_c2_split (L₁ L₂ : List BRange) (r nr : BRange) (limit : ℚ)
    (hmem : r ∉ L₁)
    (hL1 : ∀ q ∈ L₁, BRange.overlapsB q nr = false)
    (hL2 : ∀ q ∈ L₂, BRange.overlapsB q nr = false)
    (hov : BRange.overlapsB r nr = true)
    (h1 : QI.leB r.start nr.start = true)
    (h2 : QI.leB nr.end_ r.end_ = true) :
    updateRegions limit (L₁ ++ r :: L₂) nr =
      (L₁ ++ L₂)
        ++ (if QI.leB (.fin limit) (BRange.mk' r.start nr.start T_OMIT).size
            then [BRange.mk' r.start nr.start T_OMIT] else [])
        ++ (if QI.leB (.fin limit) (BRange.mk' nr.end_ r.end_ T_OMIT).size
            then [BRange.mk' nr.end_ r.end_ T_OMIT] else []) := by
  unfold updateRegions
  have hfil : matchOverlapRange (L₁ ++ r :: L₂) nr = [r] := by
    unfold matchOverlapRange
    rw [List.filter_append, filter_eq_nil_of _ _ hL1, List.filter_cons]
    simp [hov, filter_eq_nil_of _ _ hL2]
  rw [hfil]
  show updateStep limit nr (L₁ ++ r :: L₂) r = _
  simp only [updateStep, h1, h2, Bool.and_self, if_true]
  rw [removeFirst_append _ _ _ hmem]
  split_ifs <;> simp [List.append_assoc]

/-- C2 witness: the concrete scenario of the claim.  The builder starts
from `[Range(0, inf, OMIT)]` with `size_limit = 4096`; after
`_update_regions([1000, 2000))` the OMIT set is exactly `[[2000, inf)]`:
the left remainder `[0, 1000)` was dropped and the right remainder kept. -/
theorem spec_c2_split_witness :
    updateRegions size_limit_default initRanges
      (BRange.mk' (.fin 1000) (.fin 2000) T_UNKN) =
      [BRange.mk' (.fin 2000) .inf T_OMIT] := by
  have h := spec_c2_split [] [] (BRange.mk' (.fin 0) .inf T_OMIT)
    (BRange.mk' (.fin 1000) (.fin 2000) T_UNKN) 4096
    (by simp) (by simp) (by simp) (by decide) (by decide) (by decide)
  exact h.trans
    (by norm_num [BRange.mk', QI.minI, QI.maxI, QI.leB, QI.ltB, BRange.size, QI.sub])

/-- C3: after `update_range`, whenever the total omitted size is positive,
`omit_scale = 0.05 * keep_size / omit_size`, so the total displayed width
of the OMIT members equals 5% of the total KEEP size (exactly, over `ℚ`);
when the total omitted size is zero `omit_scale` keeps its previous value
(default `1`). -/
theorem spec_c3_omit_scale (rs : List Range) (prev : ℚ) :
    (0 < omitSize rs →
      updateScale prev rs = (0.05 : ℚ) * keepSize rs / omitSize rs ∧
      omitDisplayed rs (updateScale prev rs) = (0.05 : ℚ) * keepSize rs) ∧
    (omitSize rs = 0 → updateScale prev rs = prev) := by
  constructor
  · intro hpos
    have hne : omitSize rs ≠ 0 := ne_of_gt hpos
    refine ⟨by simp [updateScale, hne], ?_⟩
    rw [omitDisplayed_eq]
    simp only [updateScale, if_pos hne]
    field_simp
  · intro hz; simp [updateScale, hz]

/-- C3 witness: a two-range partition with `keep_size = omit_size = 100`
gets `omit_scale = 1/20` and displayed omitted width `5 = 0.05 * 100`; an
all-KEEP list leaves `omit_scale` at its previous value `1`. -/
theorem spec_c3_omit_scale_witness :
    (updateScale 1 [⟨0, 100, T_KEEP⟩, ⟨100, 200, T_OMIT⟩] =
        (0.05 : ℚ) * keepSize [⟨0, 100, T_KEEP⟩, ⟨100, 200, T_OMIT⟩] /
          omitSize [⟨0, 100, T_KEEP⟩, ⟨100, 200, T_OMIT⟩] ∧
      omitDisplayed [⟨0, 100, T_KEEP⟩, ⟨100, 200, T_OMIT⟩]
          (updateScale 1 [⟨0, 100, T_KEEP⟩, ⟨100, 200, T_OMIT⟩]) =
        (0.05 : ℚ) * keepSize [⟨0, 100, T_KEEP⟩, ⟨100, 200, T_OMIT⟩]) ∧
    updateScale 1 [⟨0, 100, T_KEEP⟩] = 1 :=
  ⟨(spec_c3_omit_scale _ 1).1
      (by norm_num [omitSize, Range.size, List.filter, T_KEEP, T_OMIT]),
   (spec_c3_omit_scale _ 1).2
      (by norm_num [omitSize, Range.size, List.filter, T_KEEP, T_OMIT])⟩

/-- C4 (code bug exhibited): the source computes
`(base + length) % MAX_ADDR` with `MAX_ADDR = 2^64 - 1` instead of the
specified `(base + length) mod 2^64`; at `base = 0xffffffffffffffff`,
`length = 0` the code yields `0` while the specified value is
`0xffffffffffffffff`. -/
theorem spec_c4_bound_eval :
    CheriCap.bound { CheriCap.empty with base := some MAX_ADDR, length := some 0 } =
      some 0 ∧
    (MAX_ADDR + 0) % 2 ^ 64 = MAX_ADDR ∧ (0 : ℕ) ≠ MAX_ADDR := by
  refine ⟨?_, by decide, by decide⟩
  show some ((MAX_ADDR + 0) % MAX_ADDR) = some 0
  norm_num

/-- C5 counterexample: on a capability whose `permissions` is unset
(`None`), `has_perm` does not return `False` — the bitmask expression
`None & perm` fails (a `TypeError`) before any value is produced. -/
theorem spec_c5_none_cex :
    CheriCap.has_perm CheriCap.empty CheriCapPerm.GLOBAL ≠ Except.ok false :=
  fun h => Except.noConfusion h

/-- C5 amended: when `permissions` is an integer bitmask, `has_perm`
returns true iff the tested bit(s) intersect it; when `permissions` is
`None` the call raises a `TypeError` instead of returning false. -/
theorem spec_c5_has_perm (c : CheriCap) (b : ℕ) :
    (∀ p, c.permissions = some p →
      (c.has_perm b = Except.ok true ↔ p &&& b ≠ 0)) ∧
    (c.permissions = none →
      c.has_perm b =
        Except.error "TypeError: unsupported operand type for &: NoneType and int") := by
  constructor
  · intro p hp
    simp [CheriCap.has_perm, hp]
  · intro hn
    simp [CheriCap.has_perm, hn]

/-- C5 witness: permissions `5` has bit `4` set and bit `2` clear; the
unset-permissions capability errors. -/
theorem spec_c5_has_perm_witness :
    (CheriCap.has_perm { CheriCap.empty with permissions := some 5 } 4 =
        Except.ok true ↔ (5 &&& 4 : ℕ) ≠ 0) ∧
    CheriCap.has_perm CheriCap.empty 1 =
      Except.error "TypeError: unsupported operand type for &: NoneType and int" :=
  ⟨(spec_c5_has_perm _ 4).1 5 rfl, (spec_c5_has_perm CheriCap.empty 1).2 rfl⟩

/-- C6 (code bug exhibited): on a non-capability operand,
`NodeData.from_operand` does not fail with the claimed
`ValueError("Operand is not a capability")` — line 205 evaluates
`logger.error(...)` first, and `logger` is undefined in provenance.py
(no import or definition supplies it), so the failure path raises a
`NameError` and the intended `raise ValueError` on line 207 is dead code;
the success path does set `cap.t_alloc` to the event's cycle count, `pc`
and `is_kernel` as the claim states. -/
theorem spec_c6_from_operand_eval :
    NodeData.from_operand ⟨false, true, ⟨1, 2, 3, 4, 5, true, false⟩, ⟨⟨7, 8, true⟩⟩⟩ =
      Except.error "NameError: name 'logger' is not defined" ∧
    (Except.error "NameError: name 'logger' is not defined" :
        Except String NodeData) ≠
      Except.error "Operand is not a capability" ∧
    NodeData.from_operand ⟨true, true, ⟨1, 2, 3, 4, 5, true, false⟩, ⟨⟨7, 8, true⟩⟩⟩ =
      Except.ok
        { cap := some { CheriCap.ofPct ⟨1, 2, 3, 4, 5, true, false⟩ with t_alloc := 7 }
          origin := -1
          pc := some 8
          is_kernel := true } :=
  ⟨rfl, fun h => absurd (Except.error.inj h) (by decide), rfl⟩

/-- C7 counterexample: the inverse scan can raise on a partition that
contains only KEEP and OMIT ranges.  The all-OMIT partition `[0, 4096)`
has no finite KEEP mass, so `update_range` installs
`omit_scale = 0.05 * 0 / 4096 = 0`, and the scan at display coordinate `0`
breaks inside the OMIT range and raises `ZeroDivisionError` at
`(x - x_current) / self.omit_scale` — not the unknown-range `ValueError`,
but a raise nonetheless, refuting "for partitions containing only KEEP and
OMIT ranges the scan never raises". -/
theorem spec_c7_zero_scale_cex :
    (∀ r ∈ [(⟨0, 4096, T_OMIT⟩ : Range)], r.rtype = T_KEEP ∨ r.rtype = T_OMIT) ∧
    updateScale 1 [⟨0, 4096, T_OMIT⟩] = 0 ∧
    get_x_inv (updateScale 1 [⟨0, 4096, T_OMIT⟩]) [⟨0, 4096, T_OMIT⟩] 0 =
      Except.error "ZeroDivisionError: float division by zero" := by
  have hsc : updateScale 1 [(⟨0, 4096, T_OMIT⟩ : Range)] = 0 := by
    norm_num [updateScale, keepSize, omitSize, Range.size, List.filter,
      T_KEEP, T_OMIT]
  refine ⟨by decide, hsc, ?_⟩
  rw [hsc]
  norm_num [get_x_inv, goInv, Range.size, T_KEEP, T_OMIT]

/-- C7 amended: the inverse scan errors out ("Unexpected range in
transform") as soon as it encounters a range whose kind is neither KEEP
nor OMIT; for lists containing only KEEP and OMIT ranges it never raises
that unknown-range error, and it raises nothing at all whenever
`omit_scale ≠ 0` — with `omit_scale = 0` (installed when the partition has
omitted mass but no finite KEEP mass) the OMIT break-branch raises a
`ZeroDivisionError` instead. -/
theorem spec_c7_inverse_unknown :
    (∀ (sc : ℚ) (rs : List Range) (x : ℚ), sc ≠ 0 →
      (∀ r ∈ rs, r.rtype = T_KEEP ∨ r.rtype = T_OMIT) →
      ∃ v, get_x_inv sc rs x = Except.ok v) ∧
    (∀ (sc : ℚ) (rs : List Range) (x : ℚ),
      (∀ r ∈ rs, r.rtype = T_KEEP ∨ r.rtype = T_OMIT) →
      get_x_inv sc rs x ≠ Except.error "Unexpected range in transform") ∧
    (∀ (sc x : ℚ) (u : Range) (post : List Range) (xinv xcur : ℚ),
      u.rtype ≠ T_KEEP → u.rtype ≠ T_OMIT →
      goInv sc x (u :: post) xinv xcur =
        Except.error "Unexpected range in transform") := by
  refine ⟨?_, ?_, ?_⟩
  · intro sc rs x hsc h
    exact goInv_ok sc x hsc rs 0 0 h
  · intro sc rs x h
    exact goInv_no_unkn sc x rs 0 0 h
  · intro sc x u post xinv xcur hk ho
    rw [goInv, if_neg hk, if_neg ho]

/-- C7 witness: a KEEP/OMIT partition inverts without error under a
nonzero scale; even at scale `0` a KEEP/OMIT-only scan never produces the
unknown-range error; a scan reaching an UNKNOWN-kind range errors. -/
theorem spec_c7_inverse_unknown_witness :
    (∃ v, get_x_inv (1 / 2) [⟨0, 10, T_KEEP⟩, ⟨10, 20, T_OMIT⟩] 12 = Except.ok v) ∧
    get_x_inv 0 [⟨0, 4096, T_OMIT⟩] 0 ≠
      Except.error "Unexpected range in transform" ∧
    goInv (1 / 2) 12 [⟨0, 10, T_UNKN⟩] 0 0 =
      Except.error "Unexpected range in transform" :=
  ⟨spec_c7_inverse_unknown.1 _ _ _ (by norm_num) (by decide),
   spec_c7_inverse_unknown.2.1 0 _ 0 (by decide),
   spec_c7_inverse_unknown.2.2 _ _ _ _ _ _ (by decide) (by decide)⟩

/-- C8 counterexample: `Range(10, 20)` "contains" `Range(0, 15)` according
to `__contains__`, although the endpoint-containment rule of the claim
(`self.start ≤ other.start` and `other.end ≤ self.end`) fails: for a
`Range` argument the membership test is an overlap-style test, not
containment. -/
theorem spec_c8_contains_cex :
    Range.containsRange (Range.mk' 10 20 T_KEEP) (Range.mk' 0 15 T_KEEP) = true ∧
    ¬((Range.mk' 10 20 T_KEEP).start ≤ (Range.mk' 0 15 T_KEEP).start ∧
      (Range.mk' 0 15 T_KEEP).end_ ≤ (Range.mk' 10 20 T_KEEP).end_) := by
  decide

/-- C8 amended: a `Range` contains a point `p` iff `start ≤ p < end` (as
claimed), but for a `Range` argument the `in` test is the asymmetric
overlap test `self.start ≤ other.end ∧ other.start < self.end`, not
endpoint containment. -/
theorem spec_c8_contains (r o : Range) (p : ℚ) :
    (r.containsPoint p = true ↔ r.start ≤ p ∧ p < r.end_) ∧
    (r.containsRange o = true ↔ r.start ≤ o.end_ ∧ o.start < r.end_) := by
  constructor <;>
    simp [Range.containsPoint, Range.containsRange, Bool.and_eq_true,
      decide_eq_true_eq]

/-- C9 counterexample: `+` on two KEEP ranges yields a range whose kind is
the constructor default `T_UNKN`, not a caller-supplied kind — `__add__`
takes no kind argument at all. -/
theorem spec_c9_add_cex :
    (Range.add (Range.mk' 0 5 T_KEEP) (Range.mk' 3 10 T_KEEP)).rtype = T_UNKN ∧
    T_UNKN ≠ T_KEEP := by
  decide

/-- C9 amended: `+` on two (normalised) ranges yields the enclosing
envelope `(min(starts), max(ends))`, always tagged with the default
`T_UNKN` kind. -/
theorem spec_c9_add (r o : Range) (hr : r.start ≤ r.end_) (_ho : o.start ≤ o.end_) :
    Range.add r o = ⟨min r.start o.start, max r.end_ o.end_, T_UNKN⟩ := by
  have hmm : min r.start o.start ≤ max r.end_ o.end_ :=
    le_trans (min_le_left _ _) (le_trans hr (le_max_left _ _))
  simp [Range.add, Range.mk', min_eq_left hmm, max_eq_right hmm]

/-- C9 witness: the envelope of `[0,5)` and `[3,10)` is `[0,10)` with kind
`T_UNKN`. -/
theorem spec_c9_add_witness :
    Range.add (Range.mk' 0 5 T_KEEP) (Range.mk' 3 10 T_KEEP) = ⟨0, 10, T_UNKN⟩ :=
  (spec_c9_add (Range.mk' 0 5 T_KEEP) (Range.mk' 3 10 T_KEEP)
    (by decide) (by decide)).trans (by decide)

/-- C10: the forward map is total on every installed (nonempty) offset
table — it always returns a value, never an error; the precomputed index
assigns scale `1` exactly to KEEP ranges and `omit_scale` to every other
kind, so a partition with UNKNOWN-kind ranges is mapped exactly as if those
ranges were OMIT (unlike the inverse scan, which errors on them). -/
theorem spec_c10_forward_total :
    (∀ (offs : List (ℚ × ℚ × ℚ)) (x : ℚ), offs ≠ [] →
      ∃ v, get_x offs x = Except.ok v) ∧
    (∀ (sc : ℚ) (rs : List Range) (x : ℚ),
      get_x (precompute sc (relabel rs)) x = get_x (precompute sc rs) x) ∧
    (∀ (sc c : ℚ) (rs : List Range),
      ((precomputeAux sc c rs).map fun t => t.2.2) =
        rs.map fun r => if r.rtype = T_KEEP then 1 else sc) :=
  ⟨fun offs x h => getx_total offs x h,
   fun sc rs x => by unfold precompute; rw [relabel_precompute],
   fun sc c rs => precompute_scales sc rs c⟩

/-- C10 witness: the forward map on a one-range UNKNOWN partition returns
a value. -/
theorem spec_c10_forward_total_witness :
    ∃ v, get_x (precompute 1 [⟨0, 10, T_UNKN⟩]) 3 = Except.ok v :=
  spec_c10_forward_total.1 _ 3 (by decide)

end Cheriplot
